import Mathlib

/-!
Verification of the data-normalization pipeline of the cargurus-to-monarch-money
repository: a shallow embedding of `src/cargurus_scraper/processors.py`
(`DateProcessor.generate_monthly_chunks`, `DataProcessor.extract_price_points`,
`DataProcessor.process_price_points`, `DataProcessor.fill_date_gaps`) and of
`src/cargurus_scraper/exporters.py` (`CSVExporter.sanitize_filename`,
`CSVExporter.generate_csv`), together with theorems settling the spec's claims
about them.

Python `datetime` values are modelled by their date part (the pipeline only
ever constructs midnight datetimes and steps them by whole days), Python floats
by rationals, and Python's dynamically typed API-response values by an

inductive `PyVal` type; exceptions are modelled by `Except`.
-/

/-- Calendar date (year, month, day): the date part of a Python `datetime`. -/
structure Date where
  y : Nat
  m : Nat
  d : Nat
deriving DecidableEq, Repr

/-- Gregorian leap-year test, as Python's `datetime`/`calendar` implement it. -/
def isLeap (y : Nat) : Bool :=
  (y % 4 == 0 && y % 100 != 0) || y % 400 == 0

/-- Length of month `m` of year `y` (months numbered 1..12). -/
def daysInMonth (y m : Nat) : Nat :=
  if m = 2 then (if isLeap y then 29 else 28)
  else if m = 4 ∨ m = 6 ∨ m = 9 ∨ m = 11 then 30
  else 31

/-- A structurally valid calendar date.  (Python additionally bounds the year
by 1..9999; that bound is imposed separately in the theorems that need it.) -/
def Valid (a : Date) : Prop :=
  1 ≤ a.m ∧ a.m ≤ 12 ∧ 1 ≤ a.d ∧ a.d ≤ daysInMonth a.y a.m

instance (a : Date) : Decidable (Valid a) := by
  unfold Valid; exact inferInstance

/-- Chronological order on dates: how Python compares `datetime` values
(lexicographic on year, month, day). -/
def dle (a b : Date) : Prop :=
  a.y < b.y ∨ (a.y = b.y ∧ (a.m < b.m ∨ (a.m = b.m ∧ a.d ≤ b.d)))

/-- Strict chronological order on dates. -/
def dlt (a b : Date) : Prop :=
  a.y < b.y ∨ (a.y = b.y ∧ (a.m < b.m ∨ (a.m = b.m ∧ a.d < b.d)))

instance decDle (a b : Date) : Decidable (dle a b) := by
  unfold dle; exact inferInstance

instance decDlt (a b : Date) : Decidable (dlt a b) := by
  unfold dlt; exact inferInstance

/-- The next calendar day: what `current + timedelta(days=1)` computes on a
(midnight) datetime. -/
def nextDay (a : Date) : Date :=
  if a.d < daysInMonth a.y a.m then ⟨a.y, a.m, a.d + 1⟩
  else if a.m < 12 then ⟨a.y, a.m + 1, 1⟩
  else ⟨a.y + 1, 1, 1⟩

/-- The previous calendar day: what `dt - timedelta(days=1)` computes. -/
def prevDay (a : Date) : Date :=
  if 1 < a.d then ⟨a.y, a.m, a.d - 1⟩
  else if 1 < a.m then ⟨a.y, a.m - 1, daysInMonth a.y (a.m - 1)⟩
  else ⟨a.y - 1, 12, 31⟩

/-- A linear measure of a date, used only to budget fuel for loops: it grows
by at least 1 from one calendar day to the next. -/
def dayKey (a : Date) : Nat :=
  a.y * 404 + a.m * 31 + a.d

/-- One decimal digit as a character. -/
def digitChar (n : Nat) : Char :=
  match n with
  | 0 => '0' | 1 => '1' | 2 => '2' | 3 => '3' | 4 => '4'
  | 5 => '5' | 6 => '6' | 7 => '7' | 8 => '8' | _ => '9'

/-- Two-digit zero-padded rendering (for values below 100). -/
def pad2 (n : Nat) : List Char :=
  [digitChar (n / 10 % 10), digitChar (n % 10)]

/-- Four-digit zero-padded rendering (for values below 10000; Python years
are bounded by 9999). -/
def pad4 (n : Nat) : List Char :=
  [digitChar (n / 1000 % 10), digitChar (n / 100 % 10), digitChar (n / 10 % 10),
   digitChar (n % 10)]

/-- The string `strftime("%Y-%m-%d")` produces for a date: zero-padded
`YYYY-MM-DD`. -/
def dateStr (a : Date) : String :=
  String.mk (pad4 a.y ++ '-' :: pad2 a.m ++ '-' :: pad2 a.d)

/-- Fuel-bounded day walk: the days from `cur` on, while `cur ≤ e`.  With
enough fuel this is exactly the `while current_date <= end_date` walk of
`DataProcessor.fill_date_gaps`. -/
def intervalAux (e : Date) : Nat → Date → List Date
  | 0, _ => []
  | n + 1, cur => if dle cur e then cur :: intervalAux e n (nextDay cur) else []

/-- Fuel that provably suffices for the walk from `s` to `e`. -/
def walkFuel (s e : Date) : Nat := dayKey e + 1 - dayKey s

/-- All calendar days from `s` to `e` inclusive, in order (empty if `e < s`). -/
def dayInterval (s e : Date) : List Date := intervalAux e (walkFuel s e) s

/-- Lookup in the dictionary `dict(price_data)` built by `fill_date_gaps`:
among the pairs whose key is `k`, the value of the last one (Python dict
construction is last-write-wins). -/
def dictGet (pd : List (String × ℚ)) (k : String) : Option ℚ :=
  (pd.reverse.find? (fun q => q.1 == k)).map (fun q => q.2)

/-- The error message `fill_date_gaps` (and `extract_price_points`) raise for
absent data. -/
def noPriceDataMsg : String :=
  "Error: No price data available for the specified vehicle and date range"

/-- Fuel-bounded embedding of the `while current_date <= end_date` loop of
`DataProcessor.fill_date_gaps`: `last` is the `last_price` carry. -/
def fillAux (pd : List (String × ℚ)) (e : Date) : Nat → Date → Option ℚ → List (String × ℚ)
  | 0, _, _ => []
  | n + 1, cur, last =>
    if dle cur e then
      match dictGet pd (dateStr cur) with
      | some p => (dateStr cur, p) :: fillAux pd e n (nextDay cur) (some p)
      | none =>
        match last with
        | some p => (dateStr cur, p) :: fillAux pd e n (nextDay cur) (some p)
        | none => fillAux pd e n (nextDay cur) none
    else []

/-- Embedding of `DataProcessor.fill_date_gaps` (processors.py lines 75-100):
raises `ValueError` (modelled as `Except.error`) on an empty series, otherwise
walks every day of `[start_date, end_date]` forward-filling prices. -/
def fill_date_gaps (price_data : List (String × ℚ)) (start_date end_date : Date) :
    Except String (List (String × ℚ)) :=
  if price_data = [] then Except.error noPriceDataMsg
  else Except.ok (fillAux price_data end_date (walkFuel start_date end_date) start_date none)

/-- Modelled from the spec (section 4.4), as the reference walk for the
refinement statement of the gap filler: "Walk every calendar day from start to
end inclusive: if the day has an exact entry, emit it and remember it as the
carry-forward value; else if a carry-forward value exists (from an earlier day
in this walk), emit (day, carried price); else (no data yet encountered) emit
nothing for that day." -/
def fillSpecWalk (pd : List (String × ℚ)) : List Date → Option ℚ → List (String × ℚ)
  | [], _ => []
  | day :: rest, carry =>
    match dictGet pd (dateStr day) with
    | some p => (dateStr day, p) :: fillSpecWalk pd rest (some p)
    | none =>
      match carry with
      | some p => (dateStr day, p) :: fillSpecWalk pd rest (some p)
      | none => fillSpecWalk pd rest none

/-- First day of the month after `a`: the `current.replace(...)` step of
`DateProcessor.generate_monthly_chunks`. -/
def firstOfNextMonth (a : Date) : Date :=
  if a.m = 12 then ⟨a.y + 1, 1, 1⟩ else ⟨a.y, a.m + 1, 1⟩

/-- Python's `min` on two datetimes (returns the first argument on ties). -/
def minDate (a b : Date) : Date := if dle a b then a else b

/-- Month counter, used to budget fuel for the chunk loop: it increases by
exactly 1 when stepping to the first day of the next month. -/
def monthKey (a : Date) : Nat := a.y * 12 + a.m

/-- Fuel-bounded embedding of the `while current < end_date` loop of
`generate_monthly_chunks`: each chunk ends at
`min(next_month - timedelta(days=1), end_date)`. -/
def chunksAux (e : Date) : Nat → Date → List (Date × Date)
  | 0, _ => []
  | n + 1, cur =>
    if dlt cur e then
      (cur, minDate (prevDay (firstOfNextMonth cur)) e) :: chunksAux e n (firstOfNextMonth cur)
    else []

/-- Embedding of `DateProcessor.generate_monthly_chunks` (processors.py
lines 20-36). -/
def generate_monthly_chunks (s e : Date) : List (Date × Date) :=
  chunksAux e (monthKey e + 1 - monthKey s) s

/-- Python values as they appear in (parsed JSON) API responses: the dynamic
types `extract_price_points` and `process_price_points` can meet. -/
inductive PyVal where
  | pyNone : PyVal
  | pyBool : Bool → PyVal
  | pyInt : Int → PyVal
  | pyFloat : ℚ → PyVal
  | pyStr : String → PyVal
  | pyList : List PyVal → PyVal
  | pyDict : List (String × PyVal) → PyVal

/-- Python exception kinds raised by the operations the processors use. -/
inductive PyErr where
  | keyError : PyErr
  | indexError : PyErr
  | typeError : PyErr
  | attributeError : PyErr
  | valueError : PyErr
deriving DecidableEq, Repr

/-- Python truthiness (`if not x`): empty/zero/None are falsy. -/
def truthy : PyVal → Bool
  | .pyNone => false
  | .pyBool b => b
  | .pyInt n => n != 0
  | .pyFloat q => q != 0
  | .pyStr s => !s.data.isEmpty
  | .pyList xs => !xs.isEmpty
  | .pyDict xs => !xs.isEmpty

/-- Lookup of a string key in a dict literal (duplicate keys: last one wins,
as when Python builds the dict). -/
def dictLookup (xs : List (String × PyVal)) (k : String) : Option PyVal :=
  (xs.reverse.find? (fun q => q.1 == k)).map (fun q => q.2)

/-- Python `v.get(k, default)`: `AttributeError` on a non-dict receiver. -/
def pyGet (v : PyVal) (k : String) (dflt : PyVal) : Except PyErr PyVal :=
  match v with
  | .pyDict xs => .ok ((dictLookup xs k).getD dflt)
  | _ => .error .attributeError

/-- Python `v[0]` with the integer index/key 0: first element of a list, first
character of a string, `KeyError` on a (string-keyed) dict, `TypeError`
otherwise. -/
def pyItem0 : PyVal → Except PyErr PyVal
  | .pyList xs =>
    match xs with
    | [] => .error .indexError
    | x :: _ => .ok x
  | .pyStr s =>
    match s.data with
    | [] => .error .indexError
    | c :: _ => .ok (.pyStr (String.mk [c]))
  | .pyDict _ => .error .keyError
  | _ => .error .typeError

/-- How `extract_price_points` terminates: one of its two `ValueError`s, a
normal return, or an exception that escapes it (its `except` clause catches
only `KeyError` and `IndexError`). -/
inductive ExtractOutcome where
  | noData : ExtractOutcome
  | unexpectedFormat : ExtractOutcome
  | uncaught : PyErr → ExtractOutcome
deriving DecidableEq, Repr

/-- The `except (KeyError, IndexError)` clause: those two become the
"Unexpected response format" `ValueError`; every other exception propagates. -/
def mapCaught : PyErr → ExtractOutcome
  | .keyError => .unexpectedFormat
  | .indexError => .unexpectedFormat
  | er => .uncaught er

/-- The `pricePointsEntities` field of a response dict, defaulted to `[]`. -/
def entitiesField (xs : List (String × PyVal)) : PyVal :=
  (dictLookup xs "pricePointsEntities").getD (.pyList [])

/-- The `pricePoints` field of an entity dict, defaulted to `[]`. -/
def pricePointsField (xs : List (String × PyVal)) : PyVal :=
  (dictLookup xs "pricePoints").getD (.pyList [])

/-- Second half of `extract_price_points`, once the entity collection is in
hand: the emptiness check, `entities[0]`, the `pricePoints` lookup and its
emptiness check. -/
def extractFromEntities (entities : PyVal) : Except ExtractOutcome PyVal :=
  if truthy entities = false then .error .noData
  else
    match pyItem0 entities with
    | .error er => .error (mapCaught er)
    | .ok ent =>
      match pyGet ent "pricePoints" (.pyList []) with
      | .error er => .error (mapCaught er)
      | .ok pps => if truthy pps = false then .error .noData else .ok pps

/-- Embedding of `DataProcessor.extract_price_points` (processors.py lines
42-57). -/
def extract_price_points (resp : PyVal) : Except ExtractOutcome PyVal :=
  match pyGet resp "pricePointsEntities" (.pyList []) with
  | .error er => .error (mapCaught er)
  | .ok entities => extractFromEntities entities

/-- Numeric value of a list of decimal digit characters (most significant
first). -/
def digitsVal (l : List Char) : Nat :=
  l.foldl (fun acc c => acc * 10 + (c.toNat - 48)) 0

/-- Whitespace as Python's regex `\s` class and `float()` stripping treat it
(ASCII part; the full language also accepts some Unicode whitespace — a
documented narrowing). -/
def isWsChar (c : Char) : Bool :=
  c = ' ' || c = '\t' || c = '\n' || c = '\r' || c = '\x0b' || c = '\x0c'

/-- Value of a Python float: finite (read as an exact rational, the
float-as-rational abstraction used throughout), signed infinity, or nan.
`float(str)` produces the non-finite values from the literals
`inf`/`infinity`/`nan`. -/
inductive PyFloatVal where
  | finite : ℚ → PyFloatVal
  | inf : Bool → PyFloatVal
  | nan : PyFloatVal
deriving DecidableEq, Repr

/-- A `digitpart` of Python's float grammar: a digit run in which a single
underscore may stand between two digits (PEP 515); yields the digits with the
underscores removed, or `none` when the run is not well formed. -/
def digitsPart? : List Char → Option (List Char)
  | [] => none
  | [c] => if c.isDigit then some [c] else none
  | c :: '_' :: rest =>
    if c.isDigit then (digitsPart? rest).map (fun ds => c :: ds) else none
  | c :: rest =>
    if c.isDigit then (digitsPart? rest).map (fun ds => c :: ds) else none

/-- The mantissa of a Python float literal (the part before any exponent):
`digits`, `digits.`, `digits.digits` or `.digits`, each digit run with
optional PEP-515 underscores. -/
def mantissaVal? (l : List Char) : Option ℚ :=
  let ip := l.takeWhile (fun c => c != '.')
  let rest := l.dropWhile (fun c => c != '.')
  match rest with
  | [] => (digitsPart? ip).map (fun ds => (digitsVal ds : ℚ))
  | _ :: fp =>
    if fp.contains '.' then none
    else
      match ip, fp with
      | [], [] => none
      | [], _ =>
        (digitsPart? fp).map (fun ds => (digitsVal ds : ℚ) / (10 : ℚ) ^ ds.length)
      | _, [] => (digitsPart? ip).map (fun ds => (digitsVal ds : ℚ))
      | _, _ =>
        match digitsPart? ip, digitsPart? fp with
        | some ds1, some ds2 =>
          some ((digitsVal ds1 : ℚ) + (digitsVal ds2 : ℚ) / (10 : ℚ) ^ ds2.length)
        | _, _ => none

/-- Python `float(str)`: strip surrounding whitespace; an optional sign; then
`inf`, `infinity` or `nan` (case-insensitive), or a decimal literal —
mantissa with optional fraction and optional `e`/`E` exponent (itself signed,
with PEP-515 underscores allowed in every digit run).  Strings outside the
grammar give `none` (the caller's `ValueError`).  Modelled over ASCII (Python
additionally accepts Unicode digits and whitespace); finite values are read
as exact rationals. -/
def pyFloatLit? (s : String) : Option PyFloatVal :=
  let l := ((s.data.dropWhile isWsChar).reverse.dropWhile isWsChar).reverse
  let sgn : Bool × List Char :=
    match l with
    | '-' :: r => (true, r)
    | '+' :: r => (false, r)
    | r => (false, r)
  let neg := sgn.1
  let body := sgn.2
  let low := body.map Char.toLower
  if low = ['i', 'n', 'f'] ∨ low = ['i', 'n', 'f', 'i', 'n', 'i', 't', 'y'] then
    some (.inf neg)
  else if low = ['n', 'a', 'n'] then some .nan
  else
    let m := body.takeWhile (fun c => !(c == 'e' || c == 'E'))
    let r := body.dropWhile (fun c => !(c == 'e' || c == 'E'))
    let expVal : Option (Option ℤ) :=
      match r with
      | [] => some none
      | _ :: er =>
        let esgn : Bool × List Char :=
          match er with
          | '-' :: r2 => (true, r2)
          | '+' :: r2 => (false, r2)
          | r2 => (false, r2)
        match digitsPart? esgn.2 with
        | some ds =>
          some (some (if esgn.1 then -(digitsVal ds : ℤ) else (digitsVal ds : ℤ)))
        | none => none
    match expVal, mantissaVal? m with
    | some eo, some q =>
      let v := match eo with
        | none => q
        | some ex => q * (10 : ℚ) ^ ex
      some (.finite (if neg then -v else v))
    | _, _ => none

/-- Round to an integer, ties to even: the rounding of Python's `round`. -/
def roundHalfEven (q : ℚ) : ℤ :=
  let f := q.floor
  let r := q - f
  if r < 1/2 then f
  else if 1/2 < r then f + 1
  else if f % 2 = 0 then f else f + 1

/-- Python `round(x, 2)`. -/
def round2 (q : ℚ) : ℚ := (roundHalfEven (q * 100) : ℚ) / 100

/-- Python `round(x, 2)` on a float value: the non-finite values round to
themselves. -/
def round2f : PyFloatVal → PyFloatVal
  | .finite q => .finite (round2 q)
  | v => v

/-- Gregorian date of a day number counted from 1970-01-01 (the standard
civil-from-days algorithm). -/
def civilFromDays (z0 : Int) : Date :=
  let z := z0 + 719468
  let era : Int := z.ediv 146097
  let doe : Int := z - era * 146097
  let yoe : Int := (doe - doe.ediv 1460 + doe.ediv 36524 - doe.ediv 146096).ediv 365
  let y : Int := yoe + era * 400
  let doy : Int := doe - (365 * yoe + yoe.ediv 4 - yoe.ediv 100)
  let mp : Int := (5 * doy + 2).ediv 153
  let dd : Int := doy - (153 * mp + 2).ediv 5 + 1
  let mm : Int := if mp < 10 then mp + 3 else mp - 9
  let yy : Int := if mm ≤ 2 then y + 1 else y
  ⟨yy.toNat, mm.toNat, dd.toNat⟩

/-- Composition `DateProcessor.from_unix_milliseconds` followed by
`strftime("%Y-%m-%d")`, as a date: the calendar day of `ts / 1000` seconds
since the epoch.  The zone is pinned to UTC (the source uses the platform's
local zone — an ambiguity the spec itself flags); the function is modelled
total, eliding `fromtimestamp`'s platform range limits. -/
def msTimestampDate (ts : ℚ) : Date := civilFromDays (ts / 1000 / 86400).floor

/-- Coercion of the left operand of `timestamp / 1000`: numbers divide,
everything else raises `TypeError`. -/
def pyToNumber : PyVal → Except PyErr ℚ
  | .pyBool b => .ok (if b then 1 else 0)
  | .pyInt n => .ok n
  | .pyFloat q => .ok q
  | _ => .error .typeError

/-- Python `float(v)`: numbers coerce, strings parse by the float-literal
grammar (`ValueError` outside it), other types raise `TypeError`. -/
def pyFloatFn : PyVal → Except PyErr PyFloatVal
  | .pyBool b => .ok (.finite (if b then 1 else 0))
  | .pyInt n => .ok (.finite n)
  | .pyFloat q => .ok (.finite q)
  | .pyStr s =>
    match pyFloatLit? s with
    | some v => .ok v
    | none => .error .valueError
  | _ => .error .typeError

/-- Python `v[k]` with a string key: `KeyError` when absent, `TypeError` on a
non-dict receiver. -/
def pyItemStr (v : PyVal) (k : String) : Except PyErr PyVal :=
  match v with
  | .pyDict xs =>
    match dictLookup xs k with
    | some r => .ok r
    | none => .error .keyError
  | _ => .error .typeError

/-- The body of the per-point `try` block of `process_price_points`, in
source order: `timestamp = point["date"]`, then
`price = round(float(point["price"]), 2)`, then the timestamp-to-date-string
conversion. -/
def normPoint (point : PyVal) : Except PyErr (String × PyFloatVal) :=
  match pyItemStr point "date" with
  | .error er => .error er
  | .ok ts =>
    match pyItemStr point "price" with
    | .error er => .error er
    | .ok pr =>
      match pyFloatFn pr with
      | .error er => .error er
      | .ok prq =>
        match pyToNumber ts with
        | .error er => .error er
        | .ok tsq => .ok (dateStr (msTimestampDate tsq), round2f prq)

/-- Embedding of `DataProcessor.process_price_points` (processors.py lines
59-73): each point whose `try` block raises is skipped (`except (KeyError,
ValueError, TypeError)` covers every error the model's operations produce,
so the batch never aborts), and the result is sorted ascending by date
string with Python's stable sort. -/
def process_price_points (pts : List PyVal) : List (String × PyFloatVal) :=
  (pts.filterMap (fun p => (normPoint p).toOption)).mergeSort
    (fun a b => decide (a.1 ≤ b.1))

/-- A raw point the claim calls malformed: its timestamp or price field is
missing, or its price is of a type `float` rejects or a string outside the
float-literal grammar, or its timestamp is not a number (so the millisecond
division fails). -/
def badPoint (p : PyVal) : Prop :=
  (∃ er, pyItemStr p "date" = .error er)
  ∨ (∃ er, pyItemStr p "price" = .error er)
  ∨ (∃ pr, pyItemStr p "price" = .ok pr ∧ ∃ er, pyFloatFn pr = .error er)
  ∨ (∃ ts, pyItemStr p "date" = .ok ts ∧ ∃ er, pyToNumber ts = .error er)

/-- The characters the regex `[<>:"/\\|?*]` of `sanitize_filename` replaces. -/
def isSpecialChar (c : Char) : Bool :=
  c = '<' || c = '>' || c = ':' || c = '"' || c = '/' || c = '\\' || c = '|' ||
    c = '?' || c = '*'

/-- Python `re.sub(r"\s+", "_", ·)`: each maximal whitespace run becomes a single
underscore (a run contributes `_` once, when its last character is reached). -/
def collapseWs : List Char → List Char
  | [] => []
  | [c] => if isWsChar c then ['_'] else [c]
  | c1 :: c2 :: rest =>
    if isWsChar c1 && isWsChar c2 then collapseWs (c2 :: rest)
    else (if isWsChar c1 then '_' else c1) :: collapseWs (c2 :: rest)

/-- Python `str.strip("_")`: drop underscores from both ends. -/
def stripUnderscores (l : List Char) : List Char :=
  ((l.dropWhile (fun c => c == '_')).reverse.dropWhile (fun c => c == '_')).reverse

/-- Embedding of `CSVExporter.sanitize_filename` (exporters.py lines 12-17):
replace the reserved characters by `_`, collapse whitespace runs to `_`, strip
leading and trailing underscores. -/
def sanitize_filename (account_name : String) : String :=
  String.mk (stripUnderscores (collapseWs (account_name.data.map
    (fun c => if isSpecialChar c then '_' else c))))

/-- Decimal rendering of a natural number with explicit fuel (`n + 1` always
suffices, since dividing by ten strictly shrinks a number of ten or more). -/
def natDigitsAux : Nat → Nat → List Char
  | 0, _ => []
  | fuel + 1, n =>
    if n < 10 then [digitChar n] else natDigitsAux fuel (n / 10) ++ [digitChar (n % 10)]

/-- Decimal rendering of a natural number, most significant digit first. -/
def natDigits (n : Nat) : List Char := natDigitsAux (n + 1) n

/-- The f-string `f"{price:.2f}"`: fixed-point with exactly two digits after
the decimal point, the value rounded half-to-even at the second decimal. -/
def formatFix2 (q : ℚ) : String :=
  let n := roundHalfEven (q * 100)
  let a := n.natAbs
  String.mk ((if n < 0 then ['-'] else []) ++ natDigits (a / 100) ++
    '.' :: [digitChar (a % 100 / 10), digitChar (a % 10)])

/-- Embedding of `CSVExporter.generate_csv` (exporters.py lines 19-37),
modelled as the pair of the filename it derives and the rows the `csv` writer
writes (as field values; quoting and the filesystem are outside the model). -/
def generate_csv (price_data : List (String × ℚ))
    (account_name start_date end_date : String) : String × List (List String) :=
  (sanitize_filename account_name ++ "_" ++ start_date ++ "_" ++ end_date ++ ".csv",
   ["Date", "Balance", "Account"] ::
     price_data.map (fun r => [r.1, formatFix2 r.2, account_name]))

lemma daysInMonth_le (y m : Nat) : daysInMonth y m ≤ 31 := by
  unfold daysInMonth
  split
  · split <;> omega
  · split <;> omega

lemma daysInMonth_pos (y m : Nat) : 28 ≤ daysInMonth y m := by
  unfold daysInMonth
  split
  · split <;> omega
  · split <;> omega

lemma date_eq_iff {a b : Date} : a = b ↔ a.y = b.y ∧ a.m = b.m ∧ a.d = b.d := by
  cases a; cases b; simp [Date.mk.injEq]

lemma dle_refl (a : Date) : dle a a := by unfold dle; omega

lemma dle_trans {a b c : Date} (h₁ : dle a b) (h₂ : dle b c) : dle a c := by
  unfold dle at *; omega

lemma dlt_of_dlt_of_dle {a b c : Date} (h₁ : dlt a b) (h₂ : dle b c) : dlt a c := by
  unfold dle dlt at *; omega

lemma dle_of_dlt {a b : Date} (h : dlt a b) : dle a b := by
  unfold dle dlt at *; omega

lemma dlt_irrefl (a : Date) : ¬ dlt a a := by unfold dlt; omega

lemma dle_total (a b : Date) : dle a b ∨ dle b a := by unfold dle; omega

lemma dlt_of_dle_ne {a b : Date} (h : dle a b) (hne : a ≠ b) : dlt a b := by
  have hne2 : ¬ (a.y = b.y ∧ a.m = b.m ∧ a.d = b.d) := fun hc => hne (date_eq_iff.mpr hc)
  unfold dle dlt at *; omega

lemma ne_of_dlt {a b : Date} (h : dlt a b) : a ≠ b := by
  intro he
  rw [date_eq_iff] at he
  unfold dlt at h; omega

lemma not_dle_of_dlt {a b : Date} (h : dlt a b) : ¬ dle b a := by
  unfold dle dlt at *; omega

lemma dle_of_not_dlt {a b : Date} (h : ¬ dlt a b) : dle b a := by
  unfold dle dlt at *; omega

lemma valid_nextDay {a : Date} (h : Valid a) : Valid (nextDay a) := by
  obtain ⟨h1, h2, h3, h4⟩ := h
  have p1 := daysInMonth_pos a.y (a.m + 1)
  have p2 := daysInMonth_pos (a.y + 1) 1
  unfold nextDay Valid
  split
  · dsimp only; omega
  · split <;> (dsimp only; omega)

lemma dlt_nextDay {a : Date} (h : Valid a) : dlt a (nextDay a) := by
  obtain ⟨h1, h2, h3, h4⟩ := h
  unfold nextDay dlt
  split
  · dsimp only; omega
  · split <;> (dsimp only; omega)

lemma dayKey_nextDay {a : Date} (h : Valid a) : dayKey a < dayKey (nextDay a) := by
  obtain ⟨h1, h2, h3, h4⟩ := h
  have hle := daysInMonth_le a.y a.m
  unfold nextDay dayKey
  split
  · dsimp only; omega
  · split <;> (dsimp only; omega)

lemma dayKey_le_of_dle {a b : Date} (ha : Valid a) (hb : Valid b) (h : dle a b) :
    dayKey a ≤ dayKey b := by
  obtain ⟨a1, a2, a3, a4⟩ := ha
  obtain ⟨b1, b2, b3, b4⟩ := hb
  have ha31 := daysInMonth_le a.y a.m
  have hb31 := daysInMonth_le b.y b.m
  unfold dle at h
  unfold dayKey
  omega

/-- Nothing lies strictly between a valid date and its calendar successor. -/
lemma nextDay_dle_of_dlt {a b : Date} (ha : Valid a) (hb : Valid b) (h : dlt a b) :
    dle (nextDay a) b := by
  obtain ⟨a1, a2, a3, a4⟩ := ha
  obtain ⟨b1, b2, b3, b4⟩ := hb
  unfold dlt at h
  rcases h with hy | ⟨hy, hm | ⟨hm, hd⟩⟩
  · unfold nextDay dle
    split
    · dsimp only; omega
    · split <;> (dsimp only; omega)
  · unfold nextDay dle
    split
    · dsimp only; omega
    · split <;> (dsimp only; omega)
  · have heq : daysInMonth a.y a.m = daysInMonth b.y b.m := by rw [hy, hm]
    unfold nextDay dle
    split
    · dsimp only; omega
    · split <;> (dsimp only; omega)

lemma intervalAux_stable {e : Date} (he : Valid e) :
    ∀ (n : Nat) (cur : Date), Valid cur → walkFuel cur e ≤ n →
      intervalAux e (n + 1) cur = intervalAux e n cur := by
  intro n
  induction n with
  | zero =>
    intro cur hv hf
    have hne : ¬ dle cur e := by
      intro hc
      have := dayKey_le_of_dle hv he hc
      unfold walkFuel at hf; omega
    simp [intervalAux, hne]
  | succ n ih =>
    intro cur hv hf
    have hk := dayKey_nextDay hv
    have hih := ih (nextDay cur) (valid_nextDay hv) (by unfold walkFuel at *; omega)
    show intervalAux e (n + 1 + 1) cur = intervalAux e (n + 1) cur
    conv_lhs => rw [intervalAux]
    conv_rhs => rw [intervalAux]
    by_cases hc : dle cur e
    · rw [if_pos hc, if_pos hc, hih]
    · rw [if_neg hc, if_neg hc]

lemma intervalAux_eq_dayInterval {e : Date} (he : Valid e) :
    ∀ (n : Nat) (cur : Date), Valid cur → walkFuel cur e ≤ n →
      intervalAux e n cur = dayInterval cur e := by
  intro n
  induction n with
  | zero =>
    intro cur hv hf
    unfold dayInterval
    have h0 : walkFuel cur e = 0 := by omega
    rw [h0]
  | succ n ih =>
    intro cur hv hf
    by_cases hn : walkFuel cur e ≤ n
    · rw [intervalAux_stable he n cur hv hn]
      exact ih cur hv hn
    · have h1 : walkFuel cur e = n + 1 := by omega
      unfold dayInterval
      rw [h1]

lemma dayInterval_cons {s e : Date} (hs : Valid s) (he : Valid e) (h : dle s e) :
    dayInterval s e = s :: dayInterval (nextDay s) e := by
  have hk := dayKey_le_of_dle hs he h
  have hn := dayKey_nextDay hs
  unfold dayInterval
  have h1 : walkFuel s e = (walkFuel s e - 1) + 1 := by unfold walkFuel at *; omega
  rw [h1]
  simp only [intervalAux, if_pos h]
  rw [intervalAux_eq_dayInterval he _ _ (valid_nextDay hs) (by unfold walkFuel at *; omega)]
  rfl

lemma dayInterval_nil {s e : Date} (h : ¬ dle s e) : dayInterval s e = [] := by
  unfold dayInterval
  cases hn : walkFuel s e with
  | zero => rfl
  | succ k => simp [intervalAux, h]

lemma mem_intervalAux {e : Date} :
    ∀ (n : Nat) (cur x : Date), Valid cur → x ∈ intervalAux e n cur →
      Valid x ∧ dle cur x ∧ dle x e := by
  intro n
  induction n with
  | zero => intro cur x hv hx; simp [intervalAux] at hx
  | succ n ih =>
    intro cur x hv hx
    by_cases hc : dle cur e
    · simp only [intervalAux, if_pos hc, List.mem_cons] at hx
      rcases hx with rfl | hx
      · exact ⟨hv, dle_refl x, hc⟩
      · obtain ⟨h1, h2, h3⟩ := ih (nextDay cur) x (valid_nextDay hv) hx
        exact ⟨h1, dle_trans (dle_of_dlt (dlt_nextDay hv)) h2, h3⟩
    · simp [intervalAux, hc] at hx

lemma mem_intervalAux_of_between {e : Date} (he : Valid e) :
    ∀ (n : Nat) (cur x : Date), Valid cur → Valid x → dle cur x → dle x e →
      walkFuel cur e ≤ n → x ∈ intervalAux e n cur := by
  intro n
  induction n with
  | zero =>
    intro cur x hv hvx h1 h2 hf
    have k1 := dayKey_le_of_dle hv hvx h1
    have k2 := dayKey_le_of_dle hvx he h2
    unfold walkFuel at hf; omega
  | succ n ih =>
    intro cur x hv hvx h1 h2 hf
    have hce : dle cur e := dle_trans h1 h2
    simp only [intervalAux, if_pos hce, List.mem_cons]
    by_cases hx : x = cur
    · exact Or.inl hx
    · right
      have hlt : dlt cur x := dlt_of_dle_ne h1 (fun hc => hx hc.symm)
      have hnx : dle (nextDay cur) x := nextDay_dle_of_dlt hv hvx hlt
      have hk := dayKey_nextDay hv
      have k1 := dayKey_le_of_dle hv hvx h1
      exact ih (nextDay cur) x (valid_nextDay hv) hvx hnx h2 (by unfold walkFuel at *; omega)

lemma mem_dayInterval {s e x : Date} (hs : Valid s) (he : Valid e) :
    x ∈ dayInterval s e ↔ Valid x ∧ dle s x ∧ dle x e := by
  constructor
  · exact fun hx => mem_intervalAux _ s x hs hx
  · rintro ⟨h1, h2, h3⟩
    exact mem_intervalAux_of_between he _ s x hs h1 h2 h3 (le_refl _)

lemma intervalAux_head {e : Date} (n : Nat) (cur x : Date)
    (h : (intervalAux e n cur).head? = some x) : x = cur := by
  cases n with
  | zero => simp [intervalAux] at h
  | succ n =>
    by_cases hc : dle cur e
    · simp [intervalAux, hc] at h
      exact h.symm
    · simp [intervalAux, hc] at h

lemma intervalAux_chain {e : Date} :
    ∀ (n : Nat) (cur : Date), List.Chain' (fun a b => b = nextDay a) (intervalAux e n cur) := by
  intro n
  induction n with
  | zero => intro cur; simp [intervalAux]
  | succ n ih =>
    intro cur
    by_cases hc : dle cur e
    · simp only [intervalAux, if_pos hc]
      refine List.chain'_cons'.mpr ⟨?_, ih (nextDay cur)⟩
      intro y hy
      exact intervalAux_head n (nextDay cur) y hy
    · simp [intervalAux, hc]

lemma intervalAux_pairwise {e : Date} :
    ∀ (n : Nat) (cur : Date), Valid cur → List.Pairwise dlt (intervalAux e n cur) := by
  intro n
  induction n with
  | zero => intro cur _; simp [intervalAux]
  | succ n ih =>
    intro cur hv
    by_cases hc : dle cur e
    · simp only [intervalAux, if_pos hc]
      refine List.pairwise_cons.mpr ⟨?_, ih (nextDay cur) (valid_nextDay hv)⟩
      intro x hx
      have h2 := (mem_intervalAux n (nextDay cur) x (valid_nextDay hv) hx).2.1
      exact dlt_of_dlt_of_dle (dlt_nextDay hv) h2
    · simp [intervalAux, hc]

lemma dayInterval_head {s e : Date} (hs : Valid s) (he : Valid e) (h : dle s e) :
    (dayInterval s e).head? = some s := by
  have hk := dayKey_le_of_dle hs he h
  unfold dayInterval walkFuel
  have h1 : dayKey e + 1 - dayKey s = (dayKey e - dayKey s) + 1 := by omega
  rw [h1]
  simp [intervalAux, h]

lemma fillAux_eq_specWalk (pd : List (String × ℚ)) (e : Date) :
    ∀ (n : Nat) (cur : Date) (last : Option ℚ),
      fillAux pd e n cur last = fillSpecWalk pd (intervalAux e n cur) last := by
  intro n
  induction n with
  | zero => intro cur last; rfl
  | succ n ih =>
    intro cur last
    by_cases hc : dle cur e
    · simp only [fillAux, intervalAux, if_pos hc]
      cases hd : dictGet pd (dateStr cur) with
      | some p => simp [fillSpecWalk, hd, ih]
      | none =>
        cases last with
        | some p => simp [fillSpecWalk, hd, ih]
        | none => simp [fillSpecWalk, hd, ih]
    · simp [fillAux, intervalAux, if_neg hc, fillSpecWalk]

lemma fill_date_gaps_eq_specWalk {pd : List (String × ℚ)} {s e : Date}
    (hpd : pd ≠ []) :
    fill_date_gaps pd s e = Except.ok (fillSpecWalk pd (dayInterval s e) none) := by
  unfold fill_date_gaps
  rw [if_neg hpd]
  rw [fillAux_eq_specWalk]
  rfl

lemma find?_key_eq {l : List (String × ℚ)} {k : String} {v : ℚ}
    (hnd : (l.map Prod.fst).Nodup) (hmem : (k, v) ∈ l) :
    l.find? (fun q => q.1 == k) = some (k, v) := by
  induction l with
  | nil => simp at hmem
  | cons a l ih =>
    simp only [List.map_cons, List.nodup_cons] at hnd
    rcases List.mem_cons.mp hmem with rfl | hmem2
    · exact List.find?_cons_of_pos _ (by simp)
    · have hk : a.1 ≠ k := by
        intro he
        exact hnd.1 (he ▸ (List.mem_map_of_mem Prod.fst hmem2 : (k, v).1 ∈ l.map Prod.fst))
      rw [List.find?_cons_of_neg _ (by simp [hk])]
      exact ih hnd.2 hmem2

lemma dictGet_eq_of_nodup {pd : List (String × ℚ)} {k : String} {v : ℚ}
    (hnd : (pd.map Prod.fst).Nodup) (hmem : (k, v) ∈ pd) : dictGet pd k = some v := by
  have hnd2 : (pd.reverse.map Prod.fst).Nodup := by
    rw [List.map_reverse]
    exact List.nodup_reverse.mpr hnd
  unfold dictGet
  rw [find?_key_eq hnd2 (List.mem_reverse.mpr hmem)]
  rfl

lemma dictGet_mem {pd : List (String × ℚ)} {k : String} {v : ℚ}
    (h : dictGet pd k = some v) : (k, v) ∈ pd := by
  unfold dictGet at h
  cases hf : pd.reverse.find? (fun q => q.1 == k) with
  | none => rw [hf] at h; simp at h
  | some q =>
    rw [hf] at h
    have hq : q ∈ pd.reverse := List.mem_of_find?_eq_some hf
    have hk : q.1 = k := by simpa using (List.find?_some hf)
    have hv : q.2 = v := by simpa using h
    have hqe : q = (k, v) := by
      cases q
      simp_all
    rw [← hqe]
    exact List.mem_reverse.mp hq

lemma digitChar_inj : ∀ m < 10, ∀ n < 10, digitChar m = digitChar n → m = n := by decide

/-- On dates Python can represent (year at most 9999), `strftime("%Y-%m-%d")`
is injective. -/
lemma dateStr_inj {a b : Date} (ha : Valid a) (hb : Valid b)
    (hay : a.y ≤ 9999) (hby : b.y ≤ 9999) (h : dateStr a = dateStr b) : a = b := by
  obtain ⟨a1, a2, a3, a4⟩ := ha
  obtain ⟨b1, b2, b3, b4⟩ := hb
  have ha31 := daysInMonth_le a.y a.m
  have hb31 := daysInMonth_le b.y b.m
  unfold dateStr at h
  injection h with h
  simp only [pad4, pad2, List.cons_append, List.nil_append, List.cons.injEq,
    and_true, true_and] at h
  obtain ⟨hy1, hy2, hy3, hy4, hm1, hm2, hd1, hd2⟩ := h
  have ey1 := digitChar_inj _ (by omega) _ (by omega) hy1
  have ey2 := digitChar_inj _ (by omega) _ (by omega) hy2
  have ey3 := digitChar_inj _ (by omega) _ (by omega) hy3
  have ey4 := digitChar_inj _ (by omega) _ (by omega) hy4
  have em1 := digitChar_inj _ (by omega) _ (by omega) hm1
  have em2 := digitChar_inj _ (by omega) _ (by omega) hm2
  have ed1 := digitChar_inj _ (by omega) _ (by omega) hd1
  have ed2 := digitChar_inj _ (by omega) _ (by omega) hd2
  rw [date_eq_iff]
  omega

lemma fillSpecWalk_gapless (pd : List (String × ℚ)) (hnd : (pd.map Prod.fst).Nodup) :
    ∀ (days : List Date) (pre suf : List (String × ℚ)) (carry : Option ℚ),
      pd = pre ++ suf → suf.map Prod.fst = days.map dateStr →
      fillSpecWalk pd days carry = suf := by
  intro days
  induction days with
  | nil =>
    intro pre suf carry hsplit hkeys
    simp only [List.map_nil, List.map_eq_nil_iff] at hkeys
    rw [hkeys]
    rfl
  | cons day rest ih =>
    intro pre suf carry hsplit hkeys
    cases suf with
    | nil => simp at hkeys
    | cons q suf2 =>
      simp only [List.map_cons, List.cons.injEq] at hkeys
      obtain ⟨hk1, hk2⟩ := hkeys
      have hmem : (dateStr day, q.2) ∈ pd := by
        rw [hsplit, ← hk1]
        exact List.mem_append_right pre (List.mem_cons_self q suf2)
      have hget : dictGet pd (dateStr day) = some q.2 := dictGet_eq_of_nodup hnd hmem
      show fillSpecWalk pd (day :: rest) carry = q :: suf2
      have htail : fillSpecWalk pd rest (some q.2) = suf2 :=
        ih (pre ++ [q]) suf2 (some q.2) (by rw [hsplit]; simp) hk2
      have hq : q = (dateStr day, q.2) := by
        cases q
        simp_all
      simp only [fillSpecWalk, hget, htail]
      rw [← hq]

/-- Claim C1: for every non-empty sorted series and bounds start ≤ end, the gap
filler walks every calendar day from start to end inclusive (the walked list
`dayInterval` contains exactly the days between the bounds, starts at `start`
and steps by one calendar day), and per day emits the exact entry (remembering
its price), else the carried price, else nothing — this per-day behaviour is
`fillSpecWalk`, transcribed from the spec's words.  The two concrete examples
of the claim are included: `[(Jan 1, 100), (Jan 3, 110)]` over [Jan 1, Jan 4]
fills to four days, and `[(Jan 3, 110)]` over [Jan 1, Jan 3] yields only
`(Jan 3, 110)` with no backward fill. -/
theorem claim_C1_gap_filler_walk (pd : List (String × ℚ)) (s e : Date)
    (hs : Valid s) (he : Valid e) (hse : dle s e) (hpd : pd ≠ []) :
    fill_date_gaps pd s e = Except.ok (fillSpecWalk pd (dayInterval s e) none)
    ∧ (∀ x : Date, x ∈ dayInterval s e ↔ Valid x ∧ dle s x ∧ dle x e)
    ∧ (dayInterval s e).head? = some s
    ∧ List.Chain' (fun a b => b = nextDay a) (dayInterval s e)
    ∧ fill_date_gaps [("2024-01-01", 100), ("2024-01-03", 110)] ⟨2024, 1, 1⟩ ⟨2024, 1, 4⟩ =
        Except.ok [("2024-01-01", 100), ("2024-01-02", 100),
                   ("2024-01-03", 110), ("2024-01-04", 110)]
    ∧ fill_date_gaps [("2024-01-03", 110)] ⟨2024, 1, 1⟩ ⟨2024, 1, 3⟩ =
        Except.ok [("2024-01-03", 110)] :=
  ⟨fill_date_gaps_eq_specWalk hpd,
   fun _ => mem_dayInterval hs he,
   dayInterval_head hs he hse,
   intervalAux_chain _ _,
   by rfl,
   by rfl⟩

/-- Witness for C1 at the claim's own first example. -/
theorem claim_C1_gap_filler_walk_witness :
    fill_date_gaps [("2024-01-01", (100 : ℚ)), ("2024-01-03", 110)] ⟨2024, 1, 1⟩ ⟨2024, 1, 4⟩ =
      Except.ok (fillSpecWalk [("2024-01-01", (100 : ℚ)), ("2024-01-03", 110)]
        (dayInterval ⟨2024, 1, 1⟩ ⟨2024, 1, 4⟩) none) :=
  (claim_C1_gap_filler_walk [("2024-01-01", (100 : ℚ)), ("2024-01-03", 110)]
    ⟨2024, 1, 1⟩ ⟨2024, 1, 4⟩ (by decide) (by decide) (by decide) (by simp)).1

/-- Claim C5: the gap filler fails with the no-price-data `ValueError` exactly
when its input series is empty, and succeeds (returns `ok`) on every non-empty
series. -/
theorem claim_C5_empty_series_error (pd : List (String × ℚ)) (s e : Date) :
    (fill_date_gaps pd s e = Except.error noPriceDataMsg ↔ pd = [])
    ∧ (pd ≠ [] → ∃ out, fill_date_gaps pd s e = Except.ok out) := by
  constructor
  · constructor
    · intro h
      by_contra hne
      unfold fill_date_gaps at h
      rw [if_neg hne] at h
      exact absurd h (by simp)
    · intro h
      unfold fill_date_gaps
      rw [if_pos h]
  · intro hne
    simp only [fill_date_gaps, if_neg hne]
    exact ⟨_, rfl⟩

/-- Claim C6: gap filling is the identity on a series that already has exactly
one entry per calendar day of [start, end]: keys distinct and equal, in order,
to the rendered days of the interval. -/
theorem claim_C6_fill_idempotent_on_gapless (pd : List (String × ℚ)) (s e : Date)
    (hs : Valid s) (he : Valid e) (hse : dle s e)
    (hnd : (pd.map Prod.fst).Nodup)
    (hkeys : pd.map Prod.fst = (dayInterval s e).map dateStr) :
    fill_date_gaps pd s e = Except.ok pd := by
  have hne : pd ≠ [] := by
    intro h0
    rw [h0] at hkeys
    have hh := dayInterval_head hs he hse
    cases hdi : dayInterval s e with
    | nil => rw [hdi] at hh; simp at hh
    | cons a l => rw [hdi] at hkeys; simp at hkeys
  rw [fill_date_gaps_eq_specWalk hne]
  congr 1
  exact fillSpecWalk_gapless pd hnd (dayInterval s e) [] pd none (by simp) hkeys

/-- Witness for C6 on a concrete gapless two-day series. -/
theorem claim_C6_fill_idempotent_on_gapless_witness :
    fill_date_gaps [("2024-01-01", (100 : ℚ)), ("2024-01-02", 105)] ⟨2024, 1, 1⟩ ⟨2024, 1, 2⟩ =
      Except.ok [("2024-01-01", (100 : ℚ)), ("2024-01-02", 105)] :=
  claim_C6_fill_idempotent_on_gapless _ _ _ (by decide) (by decide) (by decide)
    (by decide) (by rfl)

lemma dle_y_le {a b : Date} (h : dle a b) : a.y ≤ b.y := by
  unfold dle at h; omega

lemma fillSpecWalk_mem {pd : List (String × ℚ)} :
    ∀ (days : List Date) (carry : Option ℚ) (q : String × ℚ),
      (carry = none ∨ ∃ r ∈ pd, carry = some r.2) →
      q ∈ fillSpecWalk pd days carry →
      (∃ day ∈ days, q.1 = dateStr day) ∧ ∃ r ∈ pd, r.2 = q.2 := by
  intro days
  induction days with
  | nil => intro carry q _ hq; simp [fillSpecWalk] at hq
  | cons day rest ih =>
    intro carry q hcarry hq
    cases hd : dictGet pd (dateStr day) with
    | some p =>
      simp only [fillSpecWalk, hd] at hq
      have hp : ((dateStr day, p) : String × ℚ) ∈ pd := dictGet_mem hd
      rcases List.mem_cons.mp hq with rfl | hq2
      · exact ⟨⟨day, List.mem_cons_self day rest, rfl⟩, ⟨(dateStr day, p), hp, rfl⟩⟩
      · obtain ⟨⟨d2, hd2, hq1⟩, hr⟩ :=
          ih (some p) q (Or.inr ⟨(dateStr day, p), hp, rfl⟩) hq2
        exact ⟨⟨d2, List.mem_cons_of_mem day hd2, hq1⟩, hr⟩
    | none =>
      cases hc : carry with
      | some p =>
        rw [hc] at hcarry hq
        simp only [fillSpecWalk, hd] at hq
        obtain ⟨r, hrmem, hrp⟩ := hcarry.resolve_left (by simp)
        have hrp2 : r.2 = p := by
          have h2 : p = r.2 := by simpa using hrp
          exact h2.symm
        rcases List.mem_cons.mp hq with rfl | hq2
        · exact ⟨⟨day, List.mem_cons_self day rest, rfl⟩, ⟨r, hrmem, hrp2⟩⟩
        · obtain ⟨⟨d2, hd2, hq1⟩, hr⟩ :=
            ih (some p) q (Or.inr ⟨r, hrmem, by rw [hrp2]⟩) hq2
          exact ⟨⟨d2, List.mem_cons_of_mem day hd2, hq1⟩, hr⟩
      | none =>
        rw [hc] at hq
        simp only [fillSpecWalk, hd] at hq
        obtain ⟨⟨d2, hd2, hq1⟩, hr⟩ := ih none q (Or.inl rfl) hq
        exact ⟨⟨d2, List.mem_cons_of_mem day hd2, hq1⟩, hr⟩

lemma fillSpecWalk_congr {pd1 pd2 : List (String × ℚ)} :
    ∀ (days : List Date) (carry : Option ℚ),
      (∀ day ∈ days, dictGet pd1 (dateStr day) = dictGet pd2 (dateStr day)) →
      fillSpecWalk pd1 days carry = fillSpecWalk pd2 days carry := by
  intro days
  induction days with
  | nil => intro carry _; rfl
  | cons day rest ih =>
    intro carry hagree
    have hday := hagree day (List.mem_cons_self day rest)
    have hrest : ∀ d2 ∈ rest, dictGet pd1 (dateStr d2) = dictGet pd2 (dateStr d2) :=
      fun d2 hd2 => hagree d2 (List.mem_cons_of_mem day hd2)
    cases hd : dictGet pd2 (dateStr day) with
    | some p =>
      have hd1 : dictGet pd1 (dateStr day) = some p := by rw [hday, hd]
      simp only [fillSpecWalk, hd1, hd]
      rw [ih (some p) hrest]
    | none =>
      have hd1 : dictGet pd1 (dateStr day) = none := by rw [hday, hd]
      cases carry with
      | some p =>
        simp only [fillSpecWalk, hd1, hd]
        rw [ih (some p) hrest]
      | none =>
        simp only [fillSpecWalk, hd1, hd]
        exact ih none hrest

lemma dictGet_cons_ne {pd : List (String × ℚ)} {k q : String} {v : ℚ} (h : q ≠ k) :
    dictGet ((k, v) :: pd) q = dictGet pd q := by
  unfold dictGet
  rw [List.reverse_cons, List.find?_append]
  have hb : (k == q) = false := beq_eq_false_iff_ne.mpr (fun hc => h hc.symm)
  have hlast : List.find? (fun r => r.1 == q) [(k, v)] = none := by
    simp [List.find?, hb]
  rw [hlast]
  simp

lemma dictGet_append_ne {pd : List (String × ℚ)} {k q : String} {v : ℚ} (h : q ≠ k) :
    dictGet (pd ++ [(k, v)]) q = dictGet pd q := by
  unfold dictGet
  rw [List.reverse_append]
  show (List.find? (fun r => r.1 == q) ([(k, v)].reverse ++ pd.reverse)).map (fun r => r.2) = _
  rw [List.find?_append]
  have hb : (k == q) = false := beq_eq_false_iff_ne.mpr (fun hc => h hc.symm)
  have hfst : List.find? (fun r => r.1 == q) [(k, v)].reverse = none := by
    simp [List.find?, hb]
  rw [hfst]
  simp

/-- Claim C10: every pair the gap filler emits carries a date inside
[start, end] and a price taken from some input point, and an input point dated
outside [start, end] never contributes: inserting one (at either end of the
series) leaves the output unchanged. -/
theorem claim_C10_fill_output_invariants (pd : List (String × ℚ)) (s e : Date)
    (hs : Valid s) (he : Valid e) (hse : dle s e) (hey : e.y ≤ 9999) (hpd : pd ≠ []) :
    (∀ out, fill_date_gaps pd s e = Except.ok out →
      ∀ q ∈ out, (∃ day : Date, Valid day ∧ dle s day ∧ dle day e ∧ q.1 = dateStr day)
        ∧ ∃ r ∈ pd, r.2 = q.2)
    ∧ (∀ (x : Date) (v : ℚ), Valid x → x.y ≤ 9999 → ¬ (dle s x ∧ dle x e) →
        fill_date_gaps ((dateStr x, v) :: pd) s e = fill_date_gaps pd s e
        ∧ fill_date_gaps (pd ++ [(dateStr x, v)]) s e = fill_date_gaps pd s e) := by
  have hnotin : ∀ (x : Date), Valid x → x.y ≤ 9999 → ¬ (dle s x ∧ dle x e) →
      ∀ day ∈ dayInterval s e, dateStr day ≠ dateStr x := by
    intro x hvx hxy hout day hday heq
    obtain ⟨hvd, hsd, hde⟩ := (mem_dayInterval hs he).mp hday
    have hdy : day.y ≤ 9999 := le_trans (dle_y_le hde) hey
    have : day = x := dateStr_inj hvd hvx hdy hxy heq
    exact hout ⟨this ▸ hsd, this ▸ hde⟩
  constructor
  · intro out hout q hq
    rw [fill_date_gaps_eq_specWalk hpd] at hout
    have hout2 : out = fillSpecWalk pd (dayInterval s e) none := by
      injection hout with h2
      exact h2.symm
    rw [hout2] at hq
    obtain ⟨⟨day, hday, hq1⟩, hr⟩ := fillSpecWalk_mem (dayInterval s e) none q (Or.inl rfl) hq
    obtain ⟨hvd, hsd, hde⟩ := (mem_dayInterval hs he).mp hday
    exact ⟨⟨day, hvd, hsd, hde, hq1⟩, hr⟩
  · intro x v hvx hxy hout
    have hne := hnotin x hvx hxy hout
    constructor
    · rw [fill_date_gaps_eq_specWalk hpd,
        fill_date_gaps_eq_specWalk (List.cons_ne_nil (dateStr x, v) pd)]
      congr 1
      exact fillSpecWalk_congr (dayInterval s e) none
        (fun day hday => dictGet_cons_ne (hne day hday))
    · rw [fill_date_gaps_eq_specWalk hpd,
        fill_date_gaps_eq_specWalk (by simp : pd ++ [(dateStr x, v)] ≠ [])]
      congr 1
      exact fillSpecWalk_congr (dayInterval s e) none
        (fun day hday => dictGet_append_ne (hne day hday))

/-- Witness for C10: prepending an out-of-range point (Jan 10 over
[Jan 1, Jan 3]) leaves the gap filler's output unchanged. -/
theorem claim_C10_fill_output_invariants_witness :
    fill_date_gaps [("2024-01-10", (50 : ℚ)), ("2024-01-03", 110)] ⟨2024, 1, 1⟩ ⟨2024, 1, 3⟩ =
      fill_date_gaps [("2024-01-03", (110 : ℚ))] ⟨2024, 1, 1⟩ ⟨2024, 1, 3⟩ :=
  ((claim_C10_fill_output_invariants [("2024-01-03", (110 : ℚ))] ⟨2024, 1, 1⟩ ⟨2024, 1, 3⟩
      (by decide) (by decide) (by decide) (by decide) (by simp)).2
    ⟨2024, 1, 10⟩ 50 (by decide) (by decide) (by decide)).1

lemma monthKey_firstOfNextMonth (a : Date) :
    monthKey (firstOfNextMonth a) = monthKey a + 1 := by
  unfold firstOfNextMonth monthKey
  split <;> (dsimp only; omega)

lemma valid_firstOfNextMonth {a : Date} (h : Valid a) : Valid (firstOfNextMonth a) := by
  obtain ⟨h1, h2, h3, h4⟩ := h
  have p1 := daysInMonth_pos a.y (a.m + 1)
  have p2 := daysInMonth_pos (a.y + 1) 1
  unfold firstOfNextMonth Valid
  split <;> (dsimp only; omega)

lemma firstOfNextMonth_d (a : Date) : (firstOfNextMonth a).d = 1 := by
  unfold firstOfNextMonth
  split <;> rfl

lemma daysInMonth_twelve (y : Nat) : daysInMonth y 12 = 31 := by
  norm_num [daysInMonth]

lemma prevDay_firstOfNextMonth {a : Date} (h : Valid a) :
    prevDay (firstOfNextMonth a) = ⟨a.y, a.m, daysInMonth a.y a.m⟩ := by
  obtain ⟨h1, h2, h3, h4⟩ := h
  unfold firstOfNextMonth
  split
  · have h12 : a.m = 12 := by assumption
    unfold prevDay
    dsimp only
    rw [if_neg (by omega), if_neg (by omega)]
    rw [date_eq_iff]
    refine ⟨by dsimp only; omega, by dsimp only; omega, ?_⟩
    dsimp only
    rw [h12, daysInMonth_twelve]
  · have hm : a.m + 1 - 1 = a.m := by omega
    unfold prevDay
    dsimp only
    rw [if_neg (by omega), if_pos (by omega)]
    rw [date_eq_iff]
    refine ⟨rfl, by dsimp only; omega, ?_⟩
    dsimp only
    rw [hm]

lemma nextDay_lastDay {a : Date} (h : Valid a) :
    nextDay ⟨a.y, a.m, daysInMonth a.y a.m⟩ = firstOfNextMonth a := by
  obtain ⟨h1, h2, h3, h4⟩ := h
  unfold nextDay firstOfNextMonth
  dsimp only
  rw [if_neg (by omega)]
  by_cases hm : a.m = 12
  · rw [if_neg (by omega), if_pos hm]
  · rw [if_pos (by omega), if_neg hm]

lemma dlt_of_monthKey_lt {a b : Date} (h1 : 1 ≤ a.m) (h2 : a.m ≤ 12)
    (h3 : 1 ≤ b.m) (h4 : b.m ≤ 12) (h : monthKey a < monthKey b) : dlt a b := by
  unfold monthKey at h
  unfold dlt
  omega

lemma monthKey_le_of_dlt {a b : Date} (h2 : a.m ≤ 12) (h3 : 1 ≤ b.m) (h : dlt a b) :
    monthKey a ≤ monthKey b := by
  unfold dlt at h
  unfold monthKey
  omega

lemma dayInterval_split {b e : Date} (hb : Valid b) (he : Valid e) (hbe : dle b e) :
    ∀ (n : Nat) (s : Date), Valid s → dle s b → walkFuel s b ≤ n →
      dayInterval s e = dayInterval s b ++ dayInterval (nextDay b) e := by
  intro n
  induction n with
  | zero =>
    intro s hs hsb hf
    have := dayKey_le_of_dle hs hb hsb
    unfold walkFuel at hf
    omega
  | succ n ih =>
    intro s hs hsb hf
    by_cases heq : s = b
    · subst heq
      rw [dayInterval_cons hs he hbe]
      rw [dayInterval_cons hs hs (dle_refl s)]
      rw [dayInterval_nil (not_dle_of_dlt (dlt_nextDay hs))]
      simp
    · have hlt : dlt s b := dlt_of_dle_ne hsb heq
      have hnb : dle (nextDay s) b := nextDay_dle_of_dlt hs hb hlt
      have hse2 : dle s e := dle_trans hsb hbe
      have hk := dayKey_nextDay hs
      have hk2 := dayKey_le_of_dle hs hb hsb
      rw [dayInterval_cons hs he hse2, dayInterval_cons hs hb hsb]
      rw [ih (nextDay s) (valid_nextDay hs) hnb (by unfold walkFuel at *; omega)]
      simp

lemma chunksAux_spec {e : Date} (he : Valid e) (hd1 : e.d ≠ 1) :
    ∀ (n : Nat) (cur : Date), Valid cur → dlt cur e → monthKey e + 1 - monthKey cur ≤ n →
      ((chunksAux e n cur).flatMap (fun c => dayInterval c.1 c.2) = dayInterval cur e)
      ∧ (chunksAux e n cur).length = monthKey e + 1 - monthKey cur
      ∧ (∀ c ∈ chunksAux e n cur, Valid c.1 ∧ Valid c.2 ∧ dle c.1 c.2
          ∧ (c.2 = e ∨ c.2.d = daysInMonth c.2.y c.2.m)) := by
  intro n
  induction n with
  | zero =>
    intro cur hv hlt hf
    have := monthKey_le_of_dlt hv.2.1 he.1 hlt
    omega
  | succ n ih =>
    intro cur hv hlt hf
    have hprev := prevDay_firstOfNextMonth hv
    have hnm_mk := monthKey_firstOfNextMonth cur
    have hnmv := valid_firstOfNextMonth hv
    have hmk_le := monthKey_le_of_dlt hv.2.1 he.1 hlt
    have hldv : Valid (⟨cur.y, cur.m, daysInMonth cur.y cur.m⟩ : Date) := by
      obtain ⟨h1, h2, h3, h4⟩ := hv
      have hp := daysInMonth_pos cur.y cur.m
      unfold Valid
      dsimp only
      omega
    simp only [chunksAux, if_pos hlt, hprev]
    by_cases hmk : monthKey cur = monthKey e
    · have hym : cur.y = e.y ∧ cur.m = e.m := by
        obtain ⟨c1, c2, c3, c4⟩ := hv
        obtain ⟨e1, e2, e3, e4⟩ := he
        unfold monthKey at hmk
        omega
      have hdim : daysInMonth cur.y cur.m = daysInMonth e.y e.m := by
        rw [hym.1, hym.2]
      have hmin : minDate ⟨cur.y, cur.m, daysInMonth cur.y cur.m⟩ e = e := by
        unfold minDate
        split
        · rw [date_eq_iff]
          have hle2 : dle cur e := dle_of_dlt hlt
          have hed : e.d ≤ daysInMonth e.y e.m := he.2.2.2
          rename_i hc
          unfold dle at hc
          dsimp only at hc
          refine ⟨by dsimp only; omega, by dsimp only; omega, by dsimp only; omega⟩
        · rfl
      have hnot : ¬ dlt (firstOfNextMonth cur) e := by
        intro hc
        have := monthKey_le_of_dlt hnmv.2.1 he.1 hc
        omega
      have hrest : chunksAux e n (firstOfNextMonth cur) = [] := by
        cases n with
        | zero => rfl
        | succ k => simp [chunksAux, hnot]
      rw [hmin, hrest]
      refine ⟨by simp, by simp; omega, ?_⟩
      intro c hc
      simp only [List.mem_singleton] at hc
      subst hc
      exact ⟨hv, he, dle_of_dlt hlt, Or.inl rfl⟩
    · have hlt_mk : monthKey cur < monthKey e := by omega
      have hld_mk : monthKey (⟨cur.y, cur.m, daysInMonth cur.y cur.m⟩ : Date) = monthKey cur := by
        unfold monthKey; rfl
      have hld_lt : dlt ⟨cur.y, cur.m, daysInMonth cur.y cur.m⟩ e :=
        dlt_of_monthKey_lt hldv.1 hldv.2.1 he.1 he.2.1 (by rw [hld_mk]; omega)
      have hmin : minDate ⟨cur.y, cur.m, daysInMonth cur.y cur.m⟩ e =
          ⟨cur.y, cur.m, daysInMonth cur.y cur.m⟩ := by
        unfold minDate
        rw [if_pos (dle_of_dlt hld_lt)]
      have hnm_lt : dlt (firstOfNextMonth cur) e := by
        have h2 : monthKey (firstOfNextMonth cur) ≤ monthKey e := by omega
        rcases lt_or_eq_of_le h2 with h3 | h3
        · exact dlt_of_monthKey_lt hnmv.1 hnmv.2.1 he.1 he.2.1 h3
        · have hym : (firstOfNextMonth cur).y = e.y ∧ (firstOfNextMonth cur).m = e.m := by
            obtain ⟨c1, c2, c3, c4⟩ := hnmv
            obtain ⟨e1, e2, e3, e4⟩ := he
            unfold monthKey at h3
            omega
          have hd := firstOfNextMonth_d cur
          have he1 : 1 ≤ e.d := he.2.2.1
          unfold dlt
          omega
      obtain ⟨ih1, ih2, ih3⟩ := ih (firstOfNextMonth cur) hnmv hnm_lt (by omega)
      have hsplit : dayInterval cur e =
          dayInterval cur ⟨cur.y, cur.m, daysInMonth cur.y cur.m⟩ ++
            dayInterval (firstOfNextMonth cur) e := by
        rw [← nextDay_lastDay hv]
        exact dayInterval_split hldv he (dle_of_dlt hld_lt) _ cur hv
          (by have h4 := hv.2.2.2; unfold dle; dsimp only; omega) (le_refl _)
      refine ⟨?_, ?_, ?_⟩
      · rw [hmin]
        simp only [List.flatMap_cons]
        rw [ih1, hsplit]
      · rw [hmin]
        simp only [List.length_cons, ih2]
        omega
      · rw [hmin]
        intro c hc
        rcases List.mem_cons.mp hc with rfl | hc2
        · refine ⟨hv, hldv, by unfold dle; dsimp only; exact Or.inr ⟨rfl, Or.inr ⟨rfl, hv.2.2.2⟩⟩, ?_⟩
          exact Or.inr rfl
        · exact ih3 c hc2

/-- Counterexample to claim C2: over start = 2022-01-15 and end = 2022-02-01
(two calendar months spanned) the chunker returns a single sub-range
[Jan 15, Jan 31]; the union of the chunks misses the end day Feb 1, so the
chunks do not partition [start, end] and their number is not the number of
months spanned. -/
theorem claim_C2_counterexample :
    generate_monthly_chunks ⟨2022, 1, 15⟩ ⟨2022, 2, 1⟩ =
      [(⟨2022, 1, 15⟩, ⟨2022, 1, 31⟩)]
    ∧ monthKey ⟨2022, 2, 1⟩ + 1 - monthKey ⟨2022, 1, 15⟩ = 2
    ∧ (generate_monthly_chunks ⟨2022, 1, 15⟩ ⟨2022, 2, 1⟩).length = 1
    ∧ (generate_monthly_chunks ⟨2022, 1, 15⟩ ⟨2022, 2, 1⟩).flatMap
        (fun c => dayInterval c.1 c.2) ≠ dayInterval ⟨2022, 1, 15⟩ ⟨2022, 2, 1⟩ := by
  refine ⟨by rfl, by rfl, by rfl, ?_⟩
  intro h
  have hlen := congrArg List.length h
  simp only [List.length_flatMap] at hlen
  revert hlen
  decide

/-- Claim C2 as amended: provided `end` is not the first day of a calendar
month, the chunker applied to valid dates start < end returns exactly one
sub-range per calendar month spanned, the concatenation of the sub-ranges'
days is exactly the days of [start, end] (union equals [start, end] with no
gaps and no overlaps), and each sub-range's end is the source end or the last
day of its calendar month.  (When `end` is the first day of a month the loop
guard `current < end_date` exits before covering `end`; see the
counterexample.) -/
theorem claim_C2_monthly_chunks_partition (s e : Date) (hs : Valid s) (he : Valid e)
    (hlt : dlt s e) (hd1 : e.d ≠ 1) :
    ((generate_monthly_chunks s e).flatMap (fun c => dayInterval c.1 c.2) = dayInterval s e)
    ∧ (generate_monthly_chunks s e).length = monthKey e + 1 - monthKey s
    ∧ (∀ c ∈ generate_monthly_chunks s e,
        Valid c.1 ∧ Valid c.2 ∧ dle c.1 c.2
          ∧ (c.2 = e ∨ c.2.d = daysInMonth c.2.y c.2.m)) :=
  chunksAux_spec he hd1 _ s hs hlt (le_refl _)

/-- Witness for the amended C2 over the repository's own test range
2024-01-15 .. 2024-03-10 (three months). -/
theorem claim_C2_monthly_chunks_partition_witness :
    ((generate_monthly_chunks ⟨2024, 1, 15⟩ ⟨2024, 3, 10⟩).flatMap
        (fun c => dayInterval c.1 c.2) = dayInterval ⟨2024, 1, 15⟩ ⟨2024, 3, 10⟩)
    ∧ (generate_monthly_chunks ⟨2024, 1, 15⟩ ⟨2024, 3, 10⟩).length =
        monthKey ⟨2024, 3, 10⟩ + 1 - monthKey ⟨2024, 1, 15⟩ :=
  ⟨(claim_C2_monthly_chunks_partition ⟨2024, 1, 15⟩ ⟨2024, 3, 10⟩
      (by decide) (by decide) (by decide) (by decide)).1,
   (claim_C2_monthly_chunks_partition ⟨2024, 1, 15⟩ ⟨2024, 3, 10⟩
      (by decide) (by decide) (by decide) (by decide)).2.1⟩

/-- Claim C9: on a single-day range (start == end) the chunker returns the
empty list, because the loop guard is the strict `current < end_date`. -/
theorem claim_C9_single_day_range_empty (a : Date) :
    generate_monthly_chunks a a = [] := by
  unfold generate_monthly_chunks
  have h : monthKey a + 1 - monthKey a = 1 := by omega
  rw [h]
  simp [chunksAux, dlt_irrefl]

lemma mapCaught_ne_noData (er : PyErr) : mapCaught er ≠ ExtractOutcome.noData := by
  cases er <;> simp [mapCaught]

lemma extractFromEntities_noData_iff (E : PyVal) :
    extractFromEntities E = .error .noData ↔
      (truthy E = false
       ∨ ∃ pxs, pyItem0 E = .ok (.pyDict pxs) ∧ truthy (pricePointsField pxs) = false) := by
  unfold extractFromEntities
  by_cases hT : truthy E = false
  · simp [hT]
  · rw [if_neg hT]
    cases hit : pyItem0 E with
    | error er =>
      simp [hT, mapCaught_ne_noData er]
    | ok ent =>
      cases ent with
      | pyNone => simp [pyGet, mapCaught, hT]
      | pyBool b => simp [pyGet, mapCaught, hT]
      | pyInt n => simp [pyGet, mapCaught, hT]
      | pyFloat q => simp [pyGet, mapCaught, hT]
      | pyStr s => simp [pyGet, mapCaught, hT]
      | pyList l => simp [pyGet, mapCaught, hT]
      | pyDict pxs =>
        show (match pyGet (.pyDict pxs) "pricePoints" (.pyList []) with
          | .error er => Except.error (mapCaught er)
          | .ok pps => if truthy pps = false then Except.error ExtractOutcome.noData
              else Except.ok pps) = Except.error ExtractOutcome.noData ↔ _
        simp only [pyGet]
        by_cases hpp : truthy (pricePointsField pxs) = false
        · simp [pricePointsField, hpp, hT]
        · simp [pricePointsField, hpp, hT]

lemma extractFromEntities_falsy {E : PyVal} (hT : truthy E = false) :
    extractFromEntities E = .error .noData := by
  unfold extractFromEntities
  rw [hT]
  simp

lemma extractFromEntities_eq_of_item0_err {E : PyVal} {er : PyErr}
    (hT : truthy E = true) (h : pyItem0 E = .error er) :
    extractFromEntities E = .error (mapCaught er) := by
  unfold extractFromEntities
  rw [hT, h]
  simp

lemma extractFromEntities_eq_of_item0_ok {E ent : PyVal}
    (hT : truthy E = true) (h : pyItem0 E = .ok ent) :
    extractFromEntities E =
      match pyGet ent "pricePoints" (.pyList []) with
      | .error er => Except.error (mapCaught er)
      | .ok pps =>
        if truthy pps = false then Except.error ExtractOutcome.noData else Except.ok pps := by
  unfold extractFromEntities
  rw [hT, h]
  simp

lemma entBranch_ne_unexpected (ent : PyVal) :
    (match pyGet ent "pricePoints" (.pyList []) with
      | .error er => Except.error (mapCaught er)
      | .ok pps =>
        if truthy pps = false then Except.error ExtractOutcome.noData else Except.ok pps) ≠
      (Except.error ExtractOutcome.unexpectedFormat : Except ExtractOutcome PyVal) := by
  cases ent with
  | pyDict pxs =>
    show (if truthy ((dictLookup pxs "pricePoints").getD (PyVal.pyList [])) = false
        then Except.error ExtractOutcome.noData
        else Except.ok ((dictLookup pxs "pricePoints").getD (PyVal.pyList []))) ≠ _
    split <;> simp
  | pyNone => simp [pyGet, mapCaught]
  | pyBool b => simp [pyGet, mapCaught]
  | pyInt n => simp [pyGet, mapCaught]
  | pyFloat q => simp [pyGet, mapCaught]
  | pyStr str => simp [pyGet, mapCaught]
  | pyList l => simp [pyGet, mapCaught]

lemma extractFromEntities_unexpected_iff (E : PyVal) :
    extractFromEntities E = .error .unexpectedFormat ↔
      ∃ dxs, E = .pyDict dxs ∧ dxs ≠ [] := by
  by_cases hT : truthy E = false
  · rw [extractFromEntities_falsy hT]
    constructor
    · intro h
      exact absurd h (by simp)
    · rintro ⟨dxs, rfl, hne⟩
      simp only [truthy] at hT
      have hemp : dxs.isEmpty = true := by
        revert hT
        cases dxs.isEmpty <;> simp
      exact absurd (List.isEmpty_iff.mp hemp) hne
  · have hT2 : truthy E = true := by
      revert hT
      cases truthy E <;> simp
    cases hit : pyItem0 E with
    | error er =>
      rw [extractFromEntities_eq_of_item0_err hT2 hit]
      cases E with
      | pyDict dxs =>
        have her : er = PyErr.keyError := by
          have h2 : pyItem0 (PyVal.pyDict dxs) = Except.error PyErr.keyError := rfl
          rw [h2] at hit
          exact (Except.error.injEq _ _).mp hit.symm
        subst her
        have hne : dxs ≠ [] := by
          intro h0
          subst h0
          simp [truthy] at hT2
        simp [mapCaught, hne]
      | pyList l =>
        cases l with
        | nil => simp [truthy] at hT2
        | cons x xs => simp [pyItem0] at hit
      | pyStr str =>
        cases str with
        | mk cs =>
          cases cs with
          | nil => simp [truthy] at hT2
          | cons c cs2 => simp [pyItem0] at hit
      | pyNone =>
        have her : er = PyErr.typeError := by
          have h2 : pyItem0 PyVal.pyNone = Except.error PyErr.typeError := rfl
          rw [h2] at hit
          exact (Except.error.injEq _ _).mp hit.symm
        subst her
        simp [mapCaught]
      | pyBool b =>
        have her : er = PyErr.typeError := by
          have h2 : pyItem0 (PyVal.pyBool b) = Except.error PyErr.typeError := rfl
          rw [h2] at hit
          exact (Except.error.injEq _ _).mp hit.symm
        subst her
        simp [mapCaught]
      | pyInt n =>
        have her : er = PyErr.typeError := by
          have h2 : pyItem0 (PyVal.pyInt n) = Except.error PyErr.typeError := rfl
          rw [h2] at hit
          exact (Except.error.injEq _ _).mp hit.symm
        subst her
        simp [mapCaught]
      | pyFloat q =>
        have her : er = PyErr.typeError := by
          have h2 : pyItem0 (PyVal.pyFloat q) = Except.error PyErr.typeError := rfl
          rw [h2] at hit
          exact (Except.error.injEq _ _).mp hit.symm
        subst her
        simp [mapCaught]
    | ok ent =>
      rw [extractFromEntities_eq_of_item0_ok hT2 hit]
      constructor
      · intro h
        exact absurd h (entBranch_ne_unexpected ent)
      · rintro ⟨dxs, rfl, hne⟩
        have h2 : pyItem0 (PyVal.pyDict dxs) = Except.error PyErr.keyError := rfl
        rw [h2] at hit
        exact absurd hit (by simp)

/-- Counterexample to claim C3.  An absent `pricePointsEntities` key is a
structurally unexpected shape by the claim's own words, yet `.get`'s default
turns it into the empty collection and the extractor raises the
`NoDataAvailable` error, not `UnexpectedResponseFormat`; and a wrong-typed
`pricePointsEntities` field (an integer) raises an uncaught `TypeError`, not
`UnexpectedResponseFormat`. -/
theorem claim_C3_counterexample :
    extract_price_points (.pyDict []) = .error .noData
    ∧ extract_price_points (.pyDict [("pricePointsEntities", .pyInt 5)]) =
        .error (.uncaught .typeError) :=
  ⟨rfl, rfl⟩

/-- Claim C3 as amended: the extractor fails with `NoDataAvailable` exactly
when the response is a mapping whose entity collection (absent keys default to
the empty list) is falsy, or whose first entity is a mapping with a falsy
(possibly defaulted) price-point collection; it fails with
`UnexpectedResponseFormat` exactly when the entity collection is a non-empty
mapping (whose integer subscript `[0]` raises the caught `KeyError`); other
structurally unexpected shapes raise uncaught `TypeError`/`AttributeError`
instead.  The two `ValueError` outcomes remain distinguishable. -/
theorem claim_C3_extractor_error_characterization (resp : PyVal) :
    (extract_price_points resp = .error .noData ↔
      ∃ xs, resp = .pyDict xs ∧
        (truthy (entitiesField xs) = false
         ∨ ∃ pxs, pyItem0 (entitiesField xs) = .ok (.pyDict pxs)
             ∧ truthy (pricePointsField pxs) = false))
    ∧ (extract_price_points resp = .error .unexpectedFormat ↔
      ∃ xs, resp = .pyDict xs ∧ ∃ dxs, entitiesField xs = .pyDict dxs ∧ dxs ≠ [])
    ∧ ExtractOutcome.noData ≠ ExtractOutcome.unexpectedFormat := by
  refine ⟨?_, ?_, by simp⟩
  · cases resp with
    | pyDict xs =>
      rw [show extract_price_points (.pyDict xs) = extractFromEntities (entitiesField xs)
        from rfl]
      rw [extractFromEntities_noData_iff]
      simp
    | pyNone => simp [extract_price_points, pyGet, mapCaught]
    | pyBool b => simp [extract_price_points, pyGet, mapCaught]
    | pyInt n => simp [extract_price_points, pyGet, mapCaught]
    | pyFloat q => simp [extract_price_points, pyGet, mapCaught]
    | pyStr str => simp [extract_price_points, pyGet, mapCaught]
    | pyList l => simp [extract_price_points, pyGet, mapCaught]
  · cases resp with
    | pyDict xs =>
      rw [show extract_price_points (.pyDict xs) = extractFromEntities (entitiesField xs)
        from rfl]
      rw [extractFromEntities_unexpected_iff]
      simp
    | pyNone => simp [extract_price_points, pyGet, mapCaught]
    | pyBool b => simp [extract_price_points, pyGet, mapCaught]
    | pyInt n => simp [extract_price_points, pyGet, mapCaught]
    | pyFloat q => simp [extract_price_points, pyGet, mapCaught]
    | pyStr str => simp [extract_price_points, pyGet, mapCaught]
    | pyList l => simp [extract_price_points, pyGet, mapCaught]

lemma normPoint_none_of_bad {p : PyVal} (h : badPoint p) : (normPoint p).toOption = none := by
  rcases h with ⟨er, he⟩ | ⟨er, he⟩ | ⟨pr, hpr, er, he⟩ | ⟨ts, hts, er, he⟩
  · simp [normPoint, he, Except.toOption]
  · cases hd : pyItemStr p "date" with
    | error e2 => simp [normPoint, hd, Except.toOption]
    | ok ts => simp [normPoint, hd, he, Except.toOption]
  · cases hd : pyItemStr p "date" with
    | error e2 => simp [normPoint, hd, Except.toOption]
    | ok ts => simp [normPoint, hd, hpr, he, Except.toOption]
  · cases hd : pyItemStr p "price" with
    | error e2 => simp [normPoint, hts, hd, Except.toOption]
    | ok pr =>
      cases hf : pyFloatFn pr with
      | error e2 => simp [normPoint, hts, hd, hf, Except.toOption]
      | ok prq => simp [normPoint, hts, hd, hf, he, Except.toOption]

/-- Claim C4: the point normalizer silently skips every point whose
timestamp or price field is missing or ill-typed (removing such a point from
anywhere in the batch leaves the output unchanged, so the batch is never
aborted), its output is sorted ascending by date string, and the claim's
concrete batch — one well-formed point and four malformed ones (bad
timestamp, missing price, missing timestamp, non-numeric price) — yields
exactly the one normalized well-formed point.  The final conjuncts pin the
modelled `float(str)` grammar at Python's accepted forms — exponents,
leading-dot fractions, surrounding whitespace, PEP-515 underscores and the
non-finite literals all coerce rather than being classed malformed — while a
truly non-numeric string still raises `ValueError`. -/
theorem claim_C4_normalizer_skips_and_sorts (pts : List PyVal) :
    (∀ (xs ys : List PyVal) (p : PyVal), badPoint p →
        process_price_points (xs ++ p :: ys) = process_price_points (xs ++ ys))
    ∧ List.Pairwise (fun a b => a.1 ≤ b.1) (process_price_points pts)
    ∧ process_price_points
        [.pyDict [("date", .pyInt 1704110400000), ("price", .pyFloat 25000.5)],
         .pyDict [("date", .pyStr "invalid"), ("price", .pyFloat 24995.75)],
         .pyDict [("price", .pyFloat 25010.25)],
         .pyDict [("date", .pyInt 1704283200000)],
         .pyDict [("date", .pyInt 1704369600000), ("price", .pyStr "invalid")]] =
      [("2024-01-01", PyFloatVal.finite (25000.5 : ℚ))]
    ∧ pyFloatFn (.pyStr "1e5") = .ok (.finite 100000)
    ∧ pyFloatFn (.pyStr ".5") = .ok (.finite ((1 : ℚ) / 2))
    ∧ pyFloatFn (.pyStr " 25 ") = .ok (.finite 25)
    ∧ pyFloatFn (.pyStr "1_0") = .ok (.finite 10)
    ∧ pyFloatFn (.pyStr "1_0.2_5e1_0") = .ok (.finite 102500000000)
    ∧ pyFloatFn (.pyStr "-Infinity") = .ok (.inf true)
    ∧ pyFloatFn (.pyStr "inf") = .ok (.inf false)
    ∧ pyFloatFn (.pyStr "nan") = .ok .nan
    ∧ pyFloatFn (.pyStr "invalid") = .error .valueError := by
  refine ⟨?_, ?_, ?_, by with_unfolding_all rfl, by with_unfolding_all rfl,
    by with_unfolding_all rfl, by with_unfolding_all rfl, by with_unfolding_all rfl,
    by with_unfolding_all rfl, by with_unfolding_all rfl, by with_unfolding_all rfl,
    by with_unfolding_all rfl⟩
  · intro xs ys p hbad
    unfold process_price_points
    rw [List.filterMap_append, List.filterMap_append, List.filterMap_cons,
      normPoint_none_of_bad hbad]
  · have htrans : ∀ (a b c : String × PyFloatVal), decide (a.1 ≤ b.1) = true →
        decide (b.1 ≤ c.1) = true → decide (a.1 ≤ c.1) = true := by
      intro a b c h1 h2
      simp only [decide_eq_true_eq] at *
      exact le_trans h1 h2
    have htotal : ∀ (a b : String × PyFloatVal),
        (decide (a.1 ≤ b.1) || decide (b.1 ≤ a.1)) = true := by
      intro a b
      simp [le_total]
    have hs := List.sorted_mergeSort htrans htotal
      ((pts.filterMap (fun p => (normPoint p).toOption)))
    unfold process_price_points
    exact hs.imp (fun h => by simpa using h)
  · have h1 : ([(.pyDict [("date", .pyInt 1704110400000), ("price", .pyFloat 25000.5)]),
        (.pyDict [("date", .pyStr "invalid"), ("price", .pyFloat 24995.75)]),
        (.pyDict [("price", .pyFloat 25010.25)]),
        (.pyDict [("date", .pyInt 1704283200000)]),
        (.pyDict [("date", .pyInt 1704369600000), ("price", .pyStr "invalid")])] :
          List PyVal).filterMap (fun p => (normPoint p).toOption)
        = [("2024-01-01", PyFloatVal.finite (25000.5 : ℚ))] := by
      with_unfolding_all rfl
    unfold process_price_points
    rw [h1, List.mergeSort_singleton]

lemma head?_dropWhile_not (p : Char → Bool) :
    ∀ (l : List Char) (c : Char), (l.dropWhile p).head? = some c → p c = false := by
  intro l
  induction l with
  | nil => intro c h; simp at h
  | cons a rest ih =>
    intro c h
    rw [List.dropWhile_cons] at h
    by_cases hp : p a
    · rw [if_pos hp] at h
      exact ih c h
    · rw [if_neg hp] at h
      simp only [List.head?_cons, Option.some.injEq] at h
      rw [← h]
      exact Bool.not_eq_true _ ▸ hp

lemma getLast?_dropWhile (p : Char → Bool) :
    ∀ (l : List Char), l.dropWhile p ≠ [] → (l.dropWhile p).getLast? = l.getLast? := by
  intro l
  induction l with
  | nil => intro h; simp at h
  | cons a rest ih =>
    intro h
    rw [List.dropWhile_cons] at h ⊢
    by_cases hp : p a
    · rw [if_pos hp] at h ⊢
      have hrest : rest ≠ [] := by
        intro h0
        rw [h0] at h
        simp at h
      rw [ih h, List.getLast?_cons]
      obtain ⟨x, hx⟩ := Option.isSome_iff_exists.mp (List.getLast?_isSome.mpr hrest)
      rw [hx]
      rfl
    · rw [if_neg hp]

lemma mem_stripUnderscores {l : List Char} {c : Char} (h : c ∈ stripUnderscores l) : c ∈ l := by
  unfold stripUnderscores at h
  rw [List.mem_reverse] at h
  have h2 := (List.dropWhile_suffix (fun c => c == '_')).subset h
  rw [List.mem_reverse] at h2
  exact (List.dropWhile_suffix (fun c => c == '_')).subset h2

lemma stripUnderscores_head (l : List Char) :
    (stripUnderscores l).head? ≠ some '_' := by
  intro h
  unfold stripUnderscores at h
  rw [List.head?_reverse] at h
  have hne : (l.dropWhile (fun c => c == '_')).reverse.dropWhile (fun c => c == '_') ≠ [] := by
    intro h0
    rw [h0] at h
    simp at h
  rw [getLast?_dropWhile _ _ hne, List.getLast?_reverse] at h
  have := head?_dropWhile_not (fun c => c == '_') l '_' h
  simp at this

lemma stripUnderscores_getLast (l : List Char) :
    (stripUnderscores l).getLast? ≠ some '_' := by
  intro h
  unfold stripUnderscores at h
  rw [List.getLast?_reverse] at h
  have := head?_dropWhile_not (fun c => c == '_')
    (l.dropWhile (fun c => c == '_')).reverse '_' h
  simp at this

lemma mem_collapseWs : ∀ (l : List Char) (c : Char),
    c ∈ collapseWs l → c = '_' ∨ (c ∈ l ∧ isWsChar c = false) := by
  intro l
  induction l with
  | nil => intro c h; simp [collapseWs] at h
  | cons c1 rest ih =>
    intro c h
    cases rest with
    | nil =>
      by_cases hw : isWsChar c1
      · simp [collapseWs, hw] at h
        exact Or.inl h
      · simp [collapseWs, hw] at h
        exact Or.inr ⟨by simp [h], by rw [h]; exact Bool.not_eq_true _ ▸ hw⟩
    | cons c2 rest2 =>
      by_cases hww : isWsChar c1 && isWsChar c2
      · rw [show collapseWs (c1 :: c2 :: rest2) = collapseWs (c2 :: rest2) by
          rw [collapseWs]; rw [if_pos hww]] at h
        rcases ih c h with h1 | ⟨h1, h2⟩
        · exact Or.inl h1
        · exact Or.inr ⟨List.mem_cons_of_mem c1 h1, h2⟩
      · rw [show collapseWs (c1 :: c2 :: rest2) =
            (if isWsChar c1 then '_' else c1) :: collapseWs (c2 :: rest2) by
          rw [collapseWs]; rw [if_neg hww]] at h
        rcases List.mem_cons.mp h with h1 | h1
        · by_cases hw : isWsChar c1
          · rw [if_pos hw] at h1
            exact Or.inl h1
          · rw [if_neg hw] at h1
            exact Or.inr ⟨by rw [h1]; exact List.mem_cons_self c1 _,
              by rw [h1]; exact Bool.not_eq_true _ ▸ hw⟩
        · rcases ih c h1 with h2 | ⟨h2, h3⟩
          · exact Or.inl h2
          · exact Or.inr ⟨List.mem_cons_of_mem c1 h2, h3⟩

lemma digitChar_isDigit (n : Nat) : (digitChar n).isDigit = true := by
  unfold digitChar
  split <;> decide

lemma natDigitsAux_props : ∀ (fuel n : Nat), n < fuel →
    natDigitsAux fuel n ≠ [] ∧ ∀ c ∈ natDigitsAux fuel n, c.isDigit = true := by
  intro fuel
  induction fuel with
  | zero => intro n h; omega
  | succ fuel ih =>
    intro n h
    by_cases h10 : n < 10
    · refine ⟨by simp [natDigitsAux, h10], ?_⟩
      intro c hc
      simp [natDigitsAux, h10] at hc
      rw [hc]
      exact digitChar_isDigit n
    · have hlt : n / 10 < fuel := by omega
      obtain ⟨h1, h2⟩ := ih (n / 10) hlt
      refine ⟨?_, ?_⟩
      · simp [natDigitsAux, h10]
      · intro c hc
        simp only [natDigitsAux, if_neg h10, List.mem_append] at hc
        rcases hc with hc | hc
        · exact h2 c hc
        · simp at hc
          rw [hc]
          exact digitChar_isDigit _

/-- Claim C8: the filename sanitizer replaces every reserved character, turns
every whitespace run into a single underscore, and trims the ends: both of the
claim's examples hold, the output never contains a reserved or whitespace
character, and never starts or ends with an underscore. -/
theorem claim_C8_sanitize_filename_behaviour :
    sanitize_filename "Car:Model*2022?File|Name" = "Car_Model_2022_File_Name"
    ∧ sanitize_filename "  Car   Model  2022 " = "Car_Model_2022"
    ∧ (∀ name : String, ∀ c ∈ (sanitize_filename name).data,
        isSpecialChar c = false ∧ isWsChar c = false)
    ∧ (∀ name : String, (sanitize_filename name).data.head? ≠ some '_'
        ∧ (sanitize_filename name).data.getLast? ≠ some '_') := by
  refine ⟨by rfl, by rfl, ?_, ?_⟩
  · intro name c hc
    have h1 : c ∈ stripUnderscores (collapseWs (name.data.map
        (fun c => if isSpecialChar c then '_' else c))) := hc
    have h2 := mem_stripUnderscores h1
    rcases mem_collapseWs _ c h2 with h3 | ⟨h3, h4⟩
    · rw [h3]
      exact ⟨by decide, by decide⟩
    · obtain ⟨a, _, ha⟩ := List.mem_map.mp h3
      by_cases hs : isSpecialChar a
      · rw [if_pos hs] at ha
        rw [← ha]
        exact ⟨by decide, by decide⟩
      · rw [if_neg hs] at ha
        rw [← ha]
        exact ⟨Bool.not_eq_true _ ▸ hs, ha ▸ h4⟩
  · intro name
    exact ⟨stripUnderscores_head _, stripUnderscores_getLast _⟩

/-- Claim C7: the CSV serializer renders the header `Date,Balance,Account`
followed by one row per series entry; each row's Balance is the price in
fixed-point notation with exactly two digits after the decimal point (an
optional sign, a non-empty run of digits, a point, two digits — never
scientific notation), and each row's Account field is the raw, unsanitized
label verbatim.  The two rounding examples of the claim hold: `25010.123`
renders as `"25010.12"` and the integer `25000` as `"25000.00"`. -/
theorem claim_C7_generate_csv_rows (pd : List (String × ℚ)) (name s e : String) :
    (generate_csv pd name s e).2 =
      ["Date", "Balance", "Account"] :: pd.map (fun r => [r.1, formatFix2 r.2, name])
    ∧ (∀ row ∈ ((generate_csv pd name s e).2).tail, row.getLast? = some name)
    ∧ (∀ q : ℚ, ∃ (sign ip : List Char) (d1 d2 : Char),
        formatFix2 q = String.mk (sign ++ ip ++ '.' :: [d1, d2])
        ∧ (sign = [] ∨ sign = ['-'])
        ∧ ip ≠ [] ∧ (∀ c ∈ ip, c.isDigit = true)
        ∧ d1.isDigit = true ∧ d2.isDigit = true)
    ∧ formatFix2 ((25010.123 : ℚ)) = "25010.12"
    ∧ formatFix2 25000 = "25000.00" := by
  refine ⟨rfl, ?_, ?_, by with_unfolding_all rfl, by with_unfolding_all rfl⟩
  · intro row hrow
    simp only [generate_csv, List.tail_cons, List.mem_map] at hrow
    obtain ⟨r, _, hr⟩ := hrow
    rw [← hr]
    rfl
  · intro q
    obtain ⟨h1, h2⟩ := natDigitsAux_props ((roundHalfEven (q * 100)).natAbs / 100 + 1)
      ((roundHalfEven (q * 100)).natAbs / 100) (by omega)
    refine ⟨if roundHalfEven (q * 100) < 0 then ['-'] else [],
      natDigits ((roundHalfEven (q * 100)).natAbs / 100),
      digitChar ((roundHalfEven (q * 100)).natAbs % 100 / 10),
      digitChar ((roundHalfEven (q * 100)).natAbs % 10),
      rfl, ?_, h1, h2, digitChar_isDigit _, digitChar_isDigit _⟩
    split
    · exact Or.inr rfl
    · exact Or.inl rfl
